import Mathlib

/-!
Verification development for the ActiveSlam grid-world environment
(`env.py`).  The environment holds an immutable ground-truth map
(`true_map`, loaded by `np.loadtxt`), a mutable belief map
(`belief_map`, values -1 unknown / 0 empty / 1 wall), an agent
position and an agent direction.  `reset` re-initialises the belief
map and the agent position; `step` applies one of the actions
0 (forward) / 1 (turn left) / 2 (turn right), runs an 8-direction
lidar scan, and returns (observation, reward, done).

The embedding below mirrors `env.py` line by line: grids are
row-major lists of rows of integers, numpy's negative-index
wrap-around is modelled by `npAxis`, the unbounded `while True` ray
march is modelled by a fuel-indexed recursion together with a proof
that the chosen fuel is sufficient, and the float arithmetic of the
reward and the coverage test is modelled over `ℚ` (the expressions
involved are exact decimal constants).
-/

namespace ActiveSlam

/-- Resolution of a single numpy index on an axis of length `n`:
an index `i` with `0 ≤ i < n` resolves to itself, an index with
`-n ≤ i < 0` wraps to `i + n`, anything else raises `IndexError`. -/
def npAxis (n : Nat) (i : Int) : Option Nat :=
  if 0 ≤ i ∧ i < (n : Int) then some i.toNat
  else if -(n : Int) ≤ i ∧ i < 0 then some (i + n).toNat
  else none

/-- The ground-truth map `self.true_map`: a row-major list of rows of
integers as produced by `np.loadtxt(map_file_path, dtype=int)`.
The values are whatever integers the file held; `env.py` performs no
validation of them. -/
structure TrueMap where
  data : List (List Int)
deriving DecidableEq

/-- `self.height`: the number of rows (`true_map.shape[0]`). -/
def TrueMap.height (tm : TrueMap) : Nat := tm.data.length

/-- `self.width`: the row length (`true_map.shape[1]`). -/
def TrueMap.width (tm : TrueMap) : Nat := (tm.data.headD []).length

/-- In-bounds read `self.true_map[i, j]` (only ever used after a
bounds check, the default is irrelevant). -/
def TrueMap.cell (tm : TrueMap) (i j : Nat) : Int :=
  (tm.data.getD i []).getD j 0

/-- The map is a rectangular `height × width` matrix, as numpy
guarantees for every 2-d array. -/
def TrueMap.Rect (tm : TrueMap) : Prop :=
  ∀ r ∈ tm.data, r.length = tm.width

/-- Every cell value is 0 (empty) or 1 (wall).  `env.py` never checks
this; it is a hypothesis about the map file. -/
def TrueMap.BinaryVals (tm : TrueMap) : Prop :=
  ∀ r ∈ tm.data, ∀ v ∈ r, v = 0 ∨ v = 1

instance (tm : TrueMap) : Decidable tm.Rect := by
  unfold TrueMap.Rect; infer_instance

instance (tm : TrueMap) : Decidable tm.BinaryVals := by
  unfold TrueMap.BinaryVals; infer_instance

/-- `self.belief_map`: a row-major `height × width` integer grid,
-1 unknown, 0 empty, 1 wall. -/
abbrev Belief := List (List Int)

/-- Read a belief cell (used only at in-bounds positions; the default
-1 makes out-of-range reads look unknown). -/
def bget (b : Belief) (i j : Nat) : Int := (b.getD i []).getD j (-1)

/-- Write a belief cell: `self.belief_map[i, j] = v`. -/
def bset (b : Belief) (i j : Nat) (v : Int) : Belief :=
  b.set i ((b.getD i []).set j v)

/-- The belief grid has the same `height × width` shape as the map. -/
def BeliefWf (tm : TrueMap) (b : Belief) : Prop :=
  b.length = tm.height ∧ ∀ r ∈ b, r.length = tm.width

instance (tm : TrueMap) (b : Belief) : Decidable (BeliefWf tm b) := by
  unfold BeliefWf; infer_instance

/-- `np.count_nonzero(self.belief_map != MAP_LEGEND[UNKNOWN])`:
the number of belief cells that are not -1. -/
def knownCount (b : Belief) : Nat :=
  (b.map (fun r => r.countP (fun v => v != -1))).sum

/-- The bounds test of the ray march
(`0 <= ray_x < self.height and 0 <= ray_y < self.width`). -/
def inBoundsI (tm : TrueMap) (rx ry : Int) : Prop :=
  0 ≤ rx ∧ rx < (tm.height : Int) ∧ 0 ≤ ry ∧ ry < (tm.width : Int)

instance (tm : TrueMap) (rx ry : Int) : Decidable (inBoundsI tm rx ry) := by
  unfold inBoundsI; infer_instance

/-- One ray of `_update_belief_map_with_lidar`: from `(rx, ry)`
advance by `(dx, dy)`; break when the candidate leaves the map;
otherwise read `true_val` from the true map, record it into the
belief map if that cell is still unknown (counting it), and break
after a wall.  The `while True` loop is driven by a fuel argument;
`castRay_fuel_stable` below shows the fuel used by `lidarScan` is
never exhausted. -/
def castRay (tm : TrueMap) (dx dy : Int) :
    Nat → Int → Int → Belief → Nat → Belief × Nat
  | 0, _, _, b, cnt => (b, cnt)
  | fuel + 1, rx, ry, b, cnt =>
    let rx' := rx + dx
    let ry' := ry + dy
    if inBoundsI tm rx' ry' then
      let tv := tm.cell rx'.toNat ry'.toNat
      let bc :=
        if bget b rx'.toNat ry'.toNat = -1 then
          (bset b rx'.toNat ry'.toNat tv, cnt + 1)
        else (b, cnt)
      if tv = 1 then bc else castRay tm dx dy fuel rx' ry' bc.1 bc.2
    else (b, cnt)

/-- The 8 scan directions, in the iteration order of
`for dx in [-1, 0, 1]: for dy in [-1, 0, 1]` with `(0, 0)` skipped. -/
def dirs : List (Int × Int) :=
  [(-1, -1), (-1, 0), (-1, 1), (0, -1), (0, 1), (1, -1), (1, 0), (1, 1)]

/-- Fuel sufficient for every ray fired from a position at most one
step outside the map (proved in `castRay_fuel_stable`). -/
def scanFuel (tm : TrueMap) : Nat := tm.height + tm.width + 2

/-- One iteration of the direction loop of
`_update_belief_map_with_lidar`: fire the ray for direction `d`,
threading the belief map and the running count. -/
def scanStep (tm : TrueMap) (fuel : Nat) (pos : Int × Int)
    (acc : Belief × Nat) (d : Int × Int) : Belief × Nat :=
  castRay tm d.1 d.2 fuel pos.1 pos.2 acc.1 acc.2

/-- `_update_belief_map_with_lidar` with an explicit fuel for the
inner `while True` loops. -/
def lidarScanFuel (tm : TrueMap) (b : Belief) (pos : Int × Int) (fuel : Nat) :
    Belief × Nat :=
  dirs.foldl (scanStep tm fuel pos) (b, 0)

/-- `_update_belief_map_with_lidar`: fire the 8 rays from the agent
position, returning the updated belief map and
`newly_discovered_cells`. -/
def lidarScan (tm : TrueMap) (b : Belief) (pos : Int × Int) : Belief × Nat :=
  lidarScanFuel tm b pos (scanFuel tm)

/-- The mutable state of `ActiveSlamEnv`. -/
structure EnvState where
  tm : TrueMap
  belief : Belief
  agentDir : Int
  agentPos : Int × Int
deriving DecidableEq

/-- `self.directions[d]` for `d ∈ {0, 1, 2, 3}`
(east, north, west, south). -/
def directions (d : Int) : Int × Int :=
  if d = 0 then (0, 1)
  else if d = 1 then (-1, 0)
  else if d = 2 then (0, -1)
  else (1, 0)

/-- Two-dimensional numpy read `self.true_map[i, j]` including
negative-index wrap-around; `none` is an `IndexError`. -/
def npGet2 (tm : TrueMap) (i j : Int) : Option Int :=
  match npAxis tm.height i, npAxis tm.width j with
  | some a, some c => some (tm.cell a c)
  | _, _ => none

/-- `self.belief_map.flatten()`: the row-major observation vector. -/
def observation (b : Belief) : List Int := b.flatten

/-- The only failure `step` can produce: a numpy `IndexError` from
the unguarded collision lookup `self.true_map[new_pos[0], new_pos[1]]`. -/
inductive StepError | indexError
deriving DecidableEq

/-- Everything one call of `step` computes: the successor state, the
returned triple, and the internal `is_collision` /
`newly_discovered_cells` values. -/
structure StepResult where
  state : EnvState
  obs : List Int
  reward : ℚ
  done : Bool
  collided : Bool
  newly : Nat
deriving DecidableEq

/-- `self.agent_dir` after the turn branch of `step`
(action 1 turns left, action 2 turns right, anything else leaves the
direction alone). -/
def dirAfter (s : EnvState) (action : Int) : Int :=
  if action = 1 then (s.agentDir + 1) % 4
  else if action = 2 then (s.agentDir - 1 + 4) % 4
  else s.agentDir

/-- `new_pos` of `step`: only action 0 adds the displacement of the
(possibly just turned) direction. -/
def newPosOf (s : EnvState) (action : Int) : Int × Int :=
  if action = 0 then
    (s.agentPos.1 + (directions (dirAfter s action)).1,
     s.agentPos.2 + (directions (dirAfter s action)).2)
  else s.agentPos

/-- The coverage fraction
`np.count_nonzero(belief_map != -1) / belief_map.size` of a state,
over `ℚ`. -/
def EnvState.coverage (s : EnvState) : ℚ :=
  (knownCount s.belief : ℚ) / ((s.tm.height * s.tm.width : Nat) : ℚ)

/-- `ActiveSlamEnv.step`, keeping the internal collision flag and
discovery count in the result.  Mirrors `env.py` lines 102-149:
turn first, compute `new_pos` (only action 0 displaces), test
`true_map[new_pos]` for a wall (numpy indexing, so a -1 coordinate
wraps and a too-large one raises), move unless colliding, rescan,
score `reward = (collision ? -5.0 : 0) + newly * 1.0 - 0.1`, and set
`done = coverage > 0.95`. -/
def stepFull (s : EnvState) (action : Int) : Except StepError StepResult :=
  match npGet2 s.tm (newPosOf s action).1 (newPosOf s action).2 with
  | none => .error .indexError
  | some v =>
    let pos' := if v = 1 then s.agentPos else newPosOf s action
    let scanned := lidarScan s.tm s.belief pos'
    let s' : EnvState :=
      { s with belief := scanned.1, agentDir := dirAfter s action,
               agentPos := pos' }
    .ok { state := s',
          obs := observation scanned.1,
          reward := (if v = 1 then (0 : ℚ) - 5 else 0) +
            (scanned.2 : ℚ) * 1 - (0.1 : ℚ),
          done := decide (s'.coverage > (0.95 : ℚ)),
          collided := decide (v = 1),
          newly := scanned.2 }

/-- The `(next_observation, reward, done)` triple `step` returns. -/
def step (s : EnvState) (action : Int) :
    Except StepError (List Int × ℚ × Bool) :=
  (stepFull s action).map (fun r => (r.obs, r.reward, r.done))

/-- Index of the first 0 in a row, if any. -/
def findIdxEmpty : List Int → Option Nat
  | [] => none
  | v :: rest =>
    if v = 0 then some 0 else (findIdxEmpty rest).map (fun j => j + 1)

/-- First row-major position holding a 0, if any. -/
def findFirstEmptyAux : List (List Int) → Option (Nat × Nat)
  | [] => none
  | r :: rest =>
    match findIdxEmpty r with
    | some j => some (0, j)
    | none => (findFirstEmptyAux rest).map (fun p => (p.1 + 1, p.2))

/-- `np.argwhere(self.true_map == 0)[0]`: the first empty cell in
row-major order.  `none` is the `IndexError` raised by `[0]` on an
empty result. -/
def findFirstEmpty (tm : TrueMap) : Option (Nat × Nat) :=
  findFirstEmptyAux tm.data

/-- The failure `reset` can produce (no empty cell in the map). -/
inductive ResetError | noStart
deriving DecidableEq

/-- `ActiveSlamEnv.reset`: belief map all -1, agent on the first
empty cell (the direction is not reset), that cell marked empty,
then an initial lidar scan; returns the new state together with the
initial observation.  (The fresh all-unknown belief grid is built
inside the success branch; when no empty cell exists the exception
discards it anyway.) -/
def reset (s : EnvState) : Except ResetError (EnvState × List Int) :=
  match findFirstEmpty s.tm with
  | none => .error .noStart
  | some (i, j) =>
    let b0 : Belief :=
      List.replicate s.tm.height (List.replicate s.tm.width (-1))
    let b1 := bset b0 i j 0
    let scanned := lidarScan s.tm b1 ((i : Int), (j : Int))
    .ok ({ s with belief := scanned.1, agentPos := ((i : Int), (j : Int)) },
         observation scanned.1)

/-- Iterated `step`, for episode-level statements. -/
def runSteps (s : EnvState) : List Int → Except StepError EnvState
  | [] => .ok s
  | a :: rest =>
    match stepFull s a with
    | .error e => .error e
    | .ok r => runSteps r.state rest

/-- The construction prefix of `ActiveSlamEnv.__init__` on the
whitespace-tokenised rows of the map file:
`np.loadtxt(path, dtype=int)` raises `ValueError` when the rows have
unequal lengths, and the unpacking
`self.height, self.width = self.true_map.shape` raises `ValueError`
unless the loaded array is two-dimensional (at least two rows).
No validation of the cell values is performed anywhere. -/
def loadTrueMap (rows : List (List Int)) : Except Unit TrueMap :=
  match rows with
  | [] => .error ()
  | [_] => .error ()
  | r0 :: rest =>
    if (r0 :: rest).all (fun r => r.length = r0.length) then
      .ok ⟨r0 :: rest⟩
    else .error ()

/-! ### Basic laws of the belief-grid reads and writes -/

theorem set_getD_self {α : Type} (l : List α) (j : Nat) (d : α) :
    l.set j (l.getD j d) = l := by
  induction l generalizing j with
  | nil => simp
  | cons a t ih =>
    cases j with
    | zero => simp [List.getD]
    | succ j => simp [List.getD] at ih ⊢; exact ih j

theorem bget_of_row_le {b : Belief} {i : Nat} (h : b.length ≤ i) (j : Nat) :
    bget b i j = -1 := by
  simp [bget, List.getD_eq_getElem?_getD, List.getElem?_eq_none h]

theorem bget_of_col_le {b : Belief} {i j : Nat}
    (h : (b.getD i []).length ≤ j) : bget b i j = -1 := by
  rw [bget, List.getD_eq_getElem?_getD (b.getD i []) j, List.getElem?_eq_none h]
  rfl

theorem bget_ne_imp {b : Belief} {i j : Nat} (h : bget b i j ≠ -1) :
    i < b.length ∧ j < (b.getD i []).length := by
  constructor
  · by_contra hc
    exact h (bget_of_row_le (Nat.le_of_not_lt hc) j)
  · by_contra hc
    exact h (bget_of_col_le (Nat.le_of_not_lt hc))

theorem getD_bset_ne {b : Belief} {i i' : Nat} (j : Nat) (v : Int)
    (h : i ≠ i') : (bset b i j v).getD i' [] = b.getD i' [] := by
  simp [bset, List.getD_eq_getElem?_getD, List.getElem?_set_ne h]

theorem bget_bset_ne {b : Belief} {i j i' j' : Nat} {v : Int}
    (h : ¬(i = i' ∧ j = j')) : bget (bset b i j v) i' j' = bget b i' j' := by
  by_cases hi : i = i'
  · subst hi
    have hj : j ≠ j' := fun hj => h ⟨rfl, hj⟩
    by_cases hlen : i < b.length
    · simp [bget, bset, List.getD_eq_getElem?_getD,
        List.getElem?_set_self hlen, List.getElem?_set_ne hj]
    · rw [bset, List.set_eq_of_length_le (Nat.le_of_not_lt hlen)]
  · rw [bget, getD_bset_ne _ _ hi, bget]

theorem bget_bset_self {b : Belief} {i j : Nat} (v : Int)
    (hi : i < b.length) (hj : j < (b.getD i []).length) :
    bget (bset b i j v) i j = v := by
  have hj2 : j < ((b[i]?).getD ([] : List Int)).length := by
    simpa [List.getD_eq_getElem?_getD] using hj
  simp [bget, bset, List.getD_eq_getElem?_getD, List.getElem?_set_self hi,
    List.getElem?_set_self hj2]

theorem bset_bget_self {b : Belief} {i j : Nat} (h : bget b i j ≠ -1) :
    bset b i j (bget b i j) = b := by
  obtain ⟨hi, hj⟩ := bget_ne_imp h
  rw [bget, bset, set_getD_self, set_getD_self]

theorem length_bset (b : Belief) (i j : Nat) (v : Int) :
    (bset b i j v).length = b.length := by
  simp [bset]

theorem beliefWf_bset {tm : TrueMap} {b : Belief} (h : BeliefWf tm b)
    (i j : Nat) (v : Int) : BeliefWf tm (bset b i j v) := by
  by_cases hi : i < b.length
  · obtain ⟨hlen, hrows⟩ := h
    refine ⟨by simpa [length_bset] using hlen, ?_⟩
    intro r hr
    rcases List.mem_or_eq_of_mem_set hr with hr' | hr'
    · exact hrows r hr'
    · subst hr'
      rw [List.length_set]
      refine hrows _ ?_
      rw [List.getD_eq_getElem?_getD, List.getElem?_eq_getElem hi]
      simp only [Option.getD_some]
      exact List.getElem_mem hi
  · rw [bset, List.set_eq_of_length_le (Nat.le_of_not_lt hi)]
    exact h

theorem countP_set_newly (r : List Int) (j : Nat) (v : Int)
    (hj : j < r.length) (hold : r.getD j (-1) = -1) (hv : v ≠ -1) :
    (r.set j v).countP (fun x => x != -1) =
      r.countP (fun x => x != -1) + 1 := by
  induction r generalizing j with
  | nil => simp at hj
  | cons a t ih =>
    cases j with
    | zero =>
      simp [List.getD] at hold
      subst hold
      simp [List.countP_cons, hv]
    | succ j =>
      simp at hj
      simp [List.getD] at hold
      have := ih j hj (by simpa [List.getD] using hold)
      simp [List.countP_cons, this]
      omega

theorem sum_map_set {β : Type} (f : List β → Nat) (b : List (List β))
    (i : Nat) (r' : List β) (hi : i < b.length) :
    ((b.set i r').map f).sum + f (b.getD i []) = (b.map f).sum + f r' := by
  induction b generalizing i with
  | nil => simp at hi
  | cons a t ih =>
    cases i with
    | zero => simp [List.getD]; omega
    | succ i =>
      simp at hi
      have := ih i hi
      simp [List.getD] at this ⊢
      omega

theorem knownCount_bset {b : Belief} {i j : Nat} {v : Int}
    (hi : i < b.length) (hj : j < (b.getD i []).length)
    (hold : bget b i j = -1) (hv : v ≠ -1) :
    knownCount (bset b i j v) = knownCount b + 1 := by
  have hrow := countP_set_newly (b.getD i []) j v hj hold hv
  have hsum := sum_map_set (fun r => r.countP (fun x => x != -1)) b i
    ((b.getD i []).set j v) hi
  simp only [] at hsum
  simp only [knownCount, bset]
  omega

/-! ### Ray lemmas -/

theorem getD_mem {α : Type} {l : List α} {i : Nat} (h : i < l.length)
    (d : α) : l.getD i d ∈ l := by
  rw [List.getD_eq_getElem?_getD, List.getElem?_eq_getElem h]
  simp only [Option.getD_some]
  exact List.getElem_mem h

theorem TrueMap.cell_binary {tm : TrueMap} (h : tm.BinaryVals) (i j : Nat) :
    tm.cell i j = 0 ∨ tm.cell i j = 1 := by
  by_cases hi : i < tm.data.length
  · by_cases hj : j < (tm.data.getD i []).length
    · exact h _ (getD_mem hi []) _ (getD_mem hj 0)
    · left
      rw [TrueMap.cell, List.getD_eq_getElem?_getD (tm.data.getD i []) j,
        List.getElem?_eq_none (Nat.le_of_not_lt hj)]
      rfl
  · left
    rw [TrueMap.cell, List.getD_eq_getElem?_getD tm.data i,
      List.getElem?_eq_none (Nat.le_of_not_lt hi)]
    rfl

theorem castRay_zero (tm : TrueMap) (dx dy rx ry : Int) (b : Belief)
    (cnt : Nat) : castRay tm dx dy 0 rx ry b cnt = (b, cnt) := rfl

theorem castRay_succ (tm : TrueMap) (dx dy : Int) (fuel : Nat)
    (rx ry : Int) (b : Belief) (cnt : Nat) :
    castRay tm dx dy (fuel + 1) rx ry b cnt =
      if inBoundsI tm (rx + dx) (ry + dy) then
        let tv := tm.cell (rx + dx).toNat (ry + dy).toNat
        let bc :=
          if bget b (rx + dx).toNat (ry + dy).toNat = -1 then
            (bset b (rx + dx).toNat (ry + dy).toNat tv, cnt + 1)
          else (b, cnt)
        if tv = 1 then bc
        else castRay tm dx dy fuel (rx + dx) (ry + dy) bc.1 bc.2
      else (b, cnt) := rfl

/-- A scan ray never rewrites a cell that is already known. -/
theorem castRay_bget_known (tm : TrueMap) (dx dy : Int) (fuel : Nat) :
    ∀ (rx ry : Int) (b : Belief) (cnt : Nat) (i j : Nat),
      bget b i j ≠ -1 →
      bget (castRay tm dx dy fuel rx ry b cnt).1 i j = bget b i j := by
  induction fuel with
  | zero => intro rx ry b cnt i j _; rfl
  | succ fuel ih =>
    intro rx ry b cnt i j h
    rw [castRay_succ]
    by_cases hin : inBoundsI tm (rx + dx) (ry + dy)
    · simp only [if_pos hin]
      by_cases hu : bget b (rx + dx).toNat (ry + dy).toNat = -1
      · have hne : ¬((rx + dx).toNat = i ∧ (ry + dy).toNat = j) := by
          rintro ⟨hi, hj⟩
          exact h (hi ▸ hj ▸ hu)
        simp only [hu, if_true]
        by_cases hw : tm.cell (rx + dx).toNat (ry + dy).toNat = 1
        · simp only [if_pos hw]
          exact bget_bset_ne hne
        · simp only [if_neg hw]
          rw [ih _ _ _ _ i j (by rw [bget_bset_ne hne]; exact h)]
          exact bget_bset_ne hne
      · simp only [hu, if_false]
        by_cases hw : tm.cell (rx + dx).toNat (ry + dy).toNat = 1
        · simp only [if_pos hw]
        · simp only [if_neg hw]
          exact ih _ _ _ _ i j h
    · simp only [if_neg hin]

/-- A scan ray keeps the belief grid well-formed. -/
theorem castRay_wf (tm : TrueMap) (dx dy : Int) (fuel : Nat) :
    ∀ (rx ry : Int) (b : Belief) (cnt : Nat), BeliefWf tm b →
      BeliefWf tm (castRay tm dx dy fuel rx ry b cnt).1 := by
  induction fuel with
  | zero => intro rx ry b cnt h; exact h
  | succ fuel ih =>
    intro rx ry b cnt h
    rw [castRay_succ]
    by_cases hin : inBoundsI tm (rx + dx) (ry + dy)
    · simp only [if_pos hin]
      by_cases hu : bget b (rx + dx).toNat (ry + dy).toNat = -1
      · simp only [hu, if_true]
        by_cases hw : tm.cell (rx + dx).toNat (ry + dy).toNat = 1
        · simp only [if_pos hw]
          exact beliefWf_bset h _ _ _
        · simp only [if_neg hw]
          exact ih _ _ _ _ (beliefWf_bset h _ _ _)
      · simp only [hu, if_false]
        by_cases hw : tm.cell (rx + dx).toNat (ry + dy).toNat = 1
        · simp only [if_pos hw]; exact h
        · simp only [if_neg hw]; exact ih _ _ _ _ h
    · simp only [if_neg hin]; exact h

/-- The running count of a ray advances exactly with the number of
belief cells that stop being unknown. -/
theorem castRay_count (tm : TrueMap) (dx dy : Int) (hbin : tm.BinaryVals)
    (fuel : Nat) :
    ∀ (rx ry : Int) (b : Belief) (cnt : Nat), BeliefWf tm b →
      knownCount (castRay tm dx dy fuel rx ry b cnt).1 + cnt =
        knownCount b + (castRay tm dx dy fuel rx ry b cnt).2 := by
  induction fuel with
  | zero => intro rx ry b cnt _; rfl
  | succ fuel ih =>
    intro rx ry b cnt hwf
    rw [castRay_succ]
    by_cases hin : inBoundsI tm (rx + dx) (ry + dy)
    · simp only [if_pos hin]
      by_cases hu : bget b (rx + dx).toNat (ry + dy).toNat = -1
      · have hi : (rx + dx).toNat < b.length := by
          obtain ⟨h1, h2, _, _⟩ := hin
          have := hwf.1
          omega
        have hj : (ry + dy).toNat < (b.getD (rx + dx).toNat []).length := by
          obtain ⟨_, _, h3, h4⟩ := hin
          have := hwf.2 _ (getD_mem hi [])
          omega
        have htv : tm.cell (rx + dx).toNat (ry + dy).toNat ≠ -1 := by
          rcases TrueMap.cell_binary hbin (rx + dx).toNat (ry + dy).toNat
            with h0 | h1 <;> omega
        have hcnt := knownCount_bset hi hj hu htv
        simp only [hu, if_true]
        by_cases hw : tm.cell (rx + dx).toNat (ry + dy).toNat = 1
        · simp only [if_pos hw]
          omega
        · simp only [if_neg hw]
          have := ih (rx + dx) (ry + dy)
            (bset b (rx + dx).toNat (ry + dy).toNat
              (tm.cell (rx + dx).toNat (ry + dy).toNat)) (cnt + 1)
            (beliefWf_bset hwf _ _ _)
          omega
      · simp only [hu, if_false]
        by_cases hw : tm.cell (rx + dx).toNat (ry + dy).toNat = 1
        · simp only [if_pos hw]
        · simp only [if_neg hw]
          exact ih _ _ _ _ hwf
    · simp only [if_neg hin]

/-! ### Termination of the ray march -/

/-- An upper bound on the number of iterations a ray from `(rx, ry)`
in direction `(dx, dy)` can make before its bounds test fails:
the distance, along one moving axis, to the edge of the map. -/
def exitBound (tm : TrueMap) (dx dy rx ry : Int) : Nat :=
  if dx = 1 then ((tm.height : Int) - rx).toNat
  else if dx = -1 then (rx + 1).toNat
  else if dy = 1 then ((tm.width : Int) - ry).toNat
  else (ry + 1).toNat

/-- Beyond `exitBound` steps of fuel, extra fuel does not change a
ray: the ray has already stopped at a wall or at the map edge. -/
theorem castRay_fuel_stable (tm : TrueMap) {d : Int × Int} (hmem : d ∈ dirs)
    (fuel : Nat) :
    ∀ (extra : Nat) (rx ry : Int) (b : Belief) (cnt : Nat),
      exitBound tm d.1 d.2 rx ry ≤ fuel →
      castRay tm d.1 d.2 (fuel + extra) rx ry b cnt =
        castRay tm d.1 d.2 fuel rx ry b cnt := by
  induction fuel with
  | zero =>
    intro extra rx ry b cnt hb
    cases extra with
    | zero => rfl
    | succ e =>
      rw [castRay_zero]
      have h0 : 0 + (e + 1) = e + 1 := by omega
      rw [h0, castRay_succ]
      have hout : ¬inBoundsI tm (rx + d.1) (ry + d.2) := by
        intro hin
        obtain ⟨h1, h2, h3, h4⟩ := hin
        fin_cases hmem <;> simp [exitBound] at hb h1 h2 h3 h4 <;> omega
      rw [if_neg hout]
  | succ fuel ih =>
    intro extra rx ry b cnt hb
    have hadd : fuel + 1 + extra = (fuel + extra) + 1 := by omega
    rw [hadd, castRay_succ, castRay_succ]
    by_cases hin : inBoundsI tm (rx + d.1) (ry + d.2)
    · simp only [if_pos hin]
      by_cases hw : tm.cell (rx + d.1).toNat (ry + d.2).toNat = 1
      · simp only [if_pos hw]
      · simp only [if_neg hw]
        apply ih
        obtain ⟨h1, h2, h3, h4⟩ := hin
        fin_cases hmem <;> simp [exitBound] at hb h1 h2 h3 h4 ⊢ <;> omega
    · simp only [if_neg hin]

/-! ### Scan-level lemmas -/

theorem exitBound_le_scanFuel (tm : TrueMap) {d : Int × Int} (hmem : d ∈ dirs)
    {rx ry : Int} (hx : -1 ≤ rx ∧ rx ≤ (tm.height : Int))
    (hy : -1 ≤ ry ∧ ry ≤ (tm.width : Int)) :
    exitBound tm d.1 d.2 rx ry ≤ scanFuel tm := by
  fin_cases hmem <;> simp [exitBound, scanFuel] <;> omega

/-- With at least `scanFuel` fuel, the fuel does not matter: every
ray of a scan fired from at most one step outside the map has
already stopped.  This is the termination of the `while True` ray
march. -/
theorem lidarScanFuel_stable (tm : TrueMap) (b : Belief) (pos : Int × Int)
    (hx : -1 ≤ pos.1 ∧ pos.1 ≤ (tm.height : Int))
    (hy : -1 ≤ pos.2 ∧ pos.2 ≤ (tm.width : Int)) (extra : Nat) :
    lidarScanFuel tm b pos (scanFuel tm + extra) = lidarScan tm b pos := by
  rw [lidarScan]
  unfold lidarScanFuel
  have hgen : ∀ (l : List (Int × Int)), (∀ d ∈ l, d ∈ dirs) →
      ∀ (acc : Belief × Nat),
        l.foldl (scanStep tm (scanFuel tm + extra) pos) acc =
          l.foldl (scanStep tm (scanFuel tm) pos) acc := by
    intro l
    induction l with
    | nil => intro _ acc; rfl
    | cons d rest ih =>
      intro hsub acc
      have hd : d ∈ dirs := hsub d (List.mem_cons_self d rest)
      simp only [List.foldl_cons]
      rw [show scanStep tm (scanFuel tm + extra) pos acc d =
            scanStep tm (scanFuel tm) pos acc d from
          castRay_fuel_stable tm hd (scanFuel tm) extra pos.1 pos.2 acc.1
            acc.2 (exitBound_le_scanFuel tm hd hx hy)]
      exact ih (fun d' hd' => hsub d' (List.mem_cons_of_mem d hd')) _
  exact hgen dirs (fun d hd => hd) (b, 0)

/-- A whole scan never rewrites a cell that is already known. -/
theorem scanFold_bget_known (tm : TrueMap) (fuel : Nat) (pos : Int × Int) :
    ∀ (l : List (Int × Int)) (acc : Belief × Nat) (i j : Nat),
      bget acc.1 i j ≠ -1 →
      bget (l.foldl (scanStep tm fuel pos) acc).1 i j = bget acc.1 i j := by
  intro l
  induction l with
  | nil => intro acc i j _; rfl
  | cons d rest ih =>
    intro acc i j h
    simp only [List.foldl_cons]
    have hstep := castRay_bget_known tm d.1 d.2 fuel pos.1 pos.2 acc.1 acc.2
      i j h
    rw [ih (scanStep tm fuel pos acc d) i j (by rw [scanStep, hstep]; exact h)]
    exact hstep

/-- A whole scan keeps the belief grid well-formed. -/
theorem scanFold_wf (tm : TrueMap) (fuel : Nat) (pos : Int × Int) :
    ∀ (l : List (Int × Int)) (acc : Belief × Nat), BeliefWf tm acc.1 →
      BeliefWf tm (l.foldl (scanStep tm fuel pos) acc).1 := by
  intro l
  induction l with
  | nil => intro acc h; exact h
  | cons d rest ih =>
    intro acc h
    simp only [List.foldl_cons]
    exact ih _ (castRay_wf tm d.1 d.2 fuel pos.1 pos.2 acc.1 acc.2 h)

/-- The count returned by a scan advances exactly with the number of
belief cells that stop being unknown. -/
theorem scanFold_count (tm : TrueMap) (hbin : tm.BinaryVals) (fuel : Nat)
    (pos : Int × Int) :
    ∀ (l : List (Int × Int)) (acc : Belief × Nat), BeliefWf tm acc.1 →
      knownCount (l.foldl (scanStep tm fuel pos) acc).1 + acc.2 =
        knownCount acc.1 + (l.foldl (scanStep tm fuel pos) acc).2 := by
  intro l
  induction l with
  | nil => intro acc _; rfl
  | cons d rest ih =>
    intro acc hwf
    simp only [List.foldl_cons]
    have h1 := castRay_count tm d.1 d.2 hbin fuel pos.1 pos.2 acc.1 acc.2 hwf
    have h2 := ih (scanStep tm fuel pos acc d)
      (castRay_wf tm d.1 d.2 fuel pos.1 pos.2 acc.1 acc.2 hwf)
    simp only [scanStep] at h2 ⊢
    omega

/-- `newly_discovered_cells` equals the increase of the number of
known belief cells across the scan. -/
theorem lidarScan_count (tm : TrueMap) (hbin : tm.BinaryVals) (b : Belief)
    (pos : Int × Int) (hwf : BeliefWf tm b) :
    knownCount (lidarScan tm b pos).1 =
      knownCount b + (lidarScan tm b pos).2 := by
  have := scanFold_count tm hbin (scanFuel tm) pos dirs (b, 0) hwf
  simpa [lidarScan, lidarScanFuel] using this

/-! ### Scan idempotence -/

/-- If every cell a ray makes known is already known in `B`, the same
ray fired over `B` does nothing. -/
theorem castRay_absorb (tm : TrueMap) (dx dy : Int) (hbin : tm.BinaryVals)
    (fuel : Nat) :
    ∀ (rx ry : Int) (b : Belief) (cnt : Nat) (B : Belief) (cnt₂ : Nat),
      BeliefWf tm b →
      (∀ i j, bget (castRay tm dx dy fuel rx ry b cnt).1 i j ≠ -1 →
        bget B i j ≠ -1) →
      castRay tm dx dy fuel rx ry B cnt₂ = (B, cnt₂) := by
  induction fuel with
  | zero => intro rx ry b cnt B cnt₂ _ _; rfl
  | succ fuel ih =>
    intro rx ry b cnt B cnt₂ hwf hsub
    rw [castRay_succ] at hsub ⊢
    by_cases hin : inBoundsI tm (rx + dx) (ry + dy)
    · simp only [if_pos hin] at hsub ⊢
      have hi : (rx + dx).toNat < b.length := by
        obtain ⟨h1, h2, _, _⟩ := hin
        have := hwf.1
        omega
      have hj : (ry + dy).toNat < (b.getD (rx + dx).toNat []).length := by
        obtain ⟨_, _, h3, h4⟩ := hin
        have := hwf.2 _ (getD_mem hi [])
        omega
      have htv : tm.cell (rx + dx).toNat (ry + dy).toNat ≠ -1 := by
        rcases TrueMap.cell_binary hbin (rx + dx).toNat (ry + dy).toNat
          with h0 | h1 <;> omega
      by_cases hu : bget b (rx + dx).toNat (ry + dy).toNat = -1
      · have hknown0 : bget (bset b (rx + dx).toNat (ry + dy).toNat
            (tm.cell (rx + dx).toNat (ry + dy).toNat))
            (rx + dx).toNat (ry + dy).toNat ≠ -1 := by
          rw [bget_bset_self _ hi hj]
          exact htv
        simp only [hu, if_true] at hsub ⊢
        by_cases hw : tm.cell (rx + dx).toNat (ry + dy).toNat = 1
        · simp only [if_pos hw] at hsub ⊢
          have hB := hsub _ _ hknown0
          rw [if_neg hB]
        · simp only [if_neg hw] at hsub ⊢
          have hB := hsub _ _ (by
            rw [castRay_bget_known tm dx dy fuel _ _ _ _ _ _ hknown0]
            exact hknown0)
          rw [if_neg hB]
          exact ih _ _ _ _ B cnt₂ (beliefWf_bset hwf _ _ _) hsub
      · simp only [hu, if_false] at hsub ⊢
        by_cases hw : tm.cell (rx + dx).toNat (ry + dy).toNat = 1
        · simp only [if_pos hw] at hsub ⊢
          have hB := hsub _ _ hu
          rw [if_neg hB]
        · simp only [if_neg hw] at hsub ⊢
          have hB := hsub _ _ (by
            rw [castRay_bget_known tm dx dy fuel _ _ _ _ _ _ hu]
            exact hu)
          rw [if_neg hB]
          exact ih _ _ _ _ B cnt₂ hwf hsub
    · simp only [if_neg hin]

/-- If every cell a scan fold makes known is already known in `B`,
the same fold over `B` does nothing. -/
theorem scanFold_absorb (tm : TrueMap) (hbin : tm.BinaryVals) (fuel : Nat)
    (pos : Int × Int) :
    ∀ (l : List (Int × Int)) (acc : Belief × Nat) (B : Belief) (cnt₂ : Nat),
      BeliefWf tm acc.1 →
      (∀ i j, bget (l.foldl (scanStep tm fuel pos) acc).1 i j ≠ -1 →
        bget B i j ≠ -1) →
      l.foldl (scanStep tm fuel pos) (B, cnt₂) = (B, cnt₂) := by
  intro l
  induction l with
  | nil => intro acc B cnt₂ _ _; rfl
  | cons d rest ih =>
    intro acc B cnt₂ hwf hsub
    simp only [List.foldl_cons] at hsub ⊢
    have hstep : scanStep tm fuel pos (B, cnt₂) d = (B, cnt₂) := by
      apply castRay_absorb tm d.1 d.2 hbin fuel pos.1 pos.2 acc.1 acc.2 B cnt₂
        hwf
      intro i j hk
      refine hsub i j ?_
      rw [scanFold_bget_known tm fuel pos rest (scanStep tm fuel pos acc d)
        i j (by rw [scanStep]; exact hk)]
      rw [scanStep]
      exact hk
    rw [hstep]
    exact ih (scanStep tm fuel pos acc d) B cnt₂
      (castRay_wf tm d.1 d.2 fuel pos.1 pos.2 acc.1 acc.2 hwf) hsub

/-- Scanning twice from the same position discovers nothing the
second time and leaves the belief map unchanged. -/
theorem lidarScan_idem (tm : TrueMap) (hbin : tm.BinaryVals) (b : Belief)
    (pos : Int × Int) (hwf : BeliefWf tm b) :
    lidarScan tm (lidarScan tm b pos).1 pos = ((lidarScan tm b pos).1, 0) := by
  unfold lidarScan lidarScanFuel
  exact scanFold_absorb tm hbin (scanFuel tm) pos dirs (b, 0) _ 0 hwf
    (fun i j h => h)

/-! ### The scan as specified, and its agreement with the code -/

/-- Writing outside the belief grid is a no-op. -/
theorem bset_out_of_range {b : Belief} {i j : Nat} (v : Int)
    (h : ¬(i < b.length ∧ j < (b.getD i []).length)) : bset b i j v = b := by
  by_cases hi : i < b.length
  · have hj : (b.getD i []).length ≤ j := by
      rcases Nat.lt_or_ge j (b.getD i []).length with h' | h'
      · exact absurd ⟨hi, h'⟩ h
      · exact h'
    rw [bset, List.set_eq_of_length_le hj, set_getD_self]
  · rw [bset, List.set_eq_of_length_le (Nat.le_of_not_lt hi)]

/-- Every known belief cell agrees with the ground truth.  This holds
in every reachable state: the only belief writes are the true values
recorded by the scan and the start cell of `reset`. -/
def Consistent (tm : TrueMap) (b : Belief) : Prop :=
  ∀ i j, bget b i j ≠ -1 → bget b i j = tm.cell i j

theorem consistent_bset {tm : TrueMap} {b : Belief} (h : Consistent tm b)
    (i j : Nat) : Consistent tm (bset b i j (tm.cell i j)) := by
  by_cases hr : i < b.length ∧ j < (b.getD i []).length
  · intro i' j' hne
    by_cases heq : i = i' ∧ j = j'
    · obtain ⟨rfl, rfl⟩ := heq
      rw [bget_bset_self _ hr.1 hr.2]
    · rw [bget_bset_ne heq] at hne ⊢
      exact h _ _ hne
  · rw [bset_out_of_range _ hr]
    exact h

/-- A ray writes only true values, so consistency is invariant. -/
theorem castRay_consistent (tm : TrueMap) (dx dy : Int) (fuel : Nat) :
    ∀ (rx ry : Int) (b : Belief) (cnt : Nat), Consistent tm b →
      Consistent tm (castRay tm dx dy fuel rx ry b cnt).1 := by
  induction fuel with
  | zero => intro rx ry b cnt h; exact h
  | succ fuel ih =>
    intro rx ry b cnt h
    rw [castRay_succ]
    by_cases hin : inBoundsI tm (rx + dx) (ry + dy)
    · simp only [if_pos hin]
      by_cases hu : bget b (rx + dx).toNat (ry + dy).toNat = -1
      · simp only [hu, if_true]
        by_cases hw : tm.cell (rx + dx).toNat (ry + dy).toNat = 1
        · simp only [if_pos hw]
          exact consistent_bset h _ _
        · simp only [if_neg hw]
          exact ih _ _ _ _ (consistent_bset h _ _)
      · simp only [hu, if_false]
        by_cases hw : tm.cell (rx + dx).toNat (ry + dy).toNat = 1
        · simp only [if_pos hw]; exact h
        · simp only [if_neg hw]; exact ih _ _ _ _ h
    · simp only [if_neg hin]; exact h

/-- The ray march exactly as claim C2 words it: identical march and
termination conditions, but the true cell kind is *recorded* at every
in-bounds cell the ray visits, the count advancing only when the cell
was still unknown. -/
def castRaySpec (tm : TrueMap) (dx dy : Int) :
    Nat → Int → Int → Belief → Nat → Belief × Nat
  | 0, _, _, b, cnt => (b, cnt)
  | fuel + 1, rx, ry, b, cnt =>
    let rx' := rx + dx
    let ry' := ry + dy
    if inBoundsI tm rx' ry' then
      let tv := tm.cell rx'.toNat ry'.toNat
      let cnt' := if bget b rx'.toNat ry'.toNat = -1 then cnt + 1 else cnt
      let b' := bset b rx'.toNat ry'.toNat tv
      if tv = 1 then (b', cnt')
      else castRaySpec tm dx dy fuel rx' ry' b' cnt'
    else (b, cnt)

/-- The whole scan as claim C2 words it: one ray per direction
vector with both components in -1..1, the zero vector excluded,
starting one step from the agent. -/
def lidarScanSpec (tm : TrueMap) (b : Belief) (pos : Int × Int) :
    Belief × Nat :=
  dirs.foldl
    (fun acc d => castRaySpec tm d.1 d.2 (scanFuel tm) pos.1 pos.2 acc.1 acc.2)
    (b, 0)

theorem castRaySpec_succ (tm : TrueMap) (dx dy : Int) (fuel : Nat)
    (rx ry : Int) (b : Belief) (cnt : Nat) :
    castRaySpec tm dx dy (fuel + 1) rx ry b cnt =
      if inBoundsI tm (rx + dx) (ry + dy) then
        let tv := tm.cell (rx + dx).toNat (ry + dy).toNat
        let cnt' :=
          if bget b (rx + dx).toNat (ry + dy).toNat = -1 then cnt + 1 else cnt
        let b' := bset b (rx + dx).toNat (ry + dy).toNat tv
        if tv = 1 then (b', cnt')
        else castRaySpec tm dx dy fuel (rx + dx) (ry + dy) b' cnt'
      else (b, cnt) := rfl

/-- On a belief map consistent with the ground truth, recording the
true kind unconditionally (the spec's wording) and recording it only
at unknown cells (the code) are the same ray. -/
theorem castRaySpec_eq_castRay (tm : TrueMap) (dx dy : Int) (fuel : Nat) :
    ∀ (rx ry : Int) (b : Belief) (cnt : Nat), Consistent tm b →
      castRaySpec tm dx dy fuel rx ry b cnt =
        castRay tm dx dy fuel rx ry b cnt := by
  induction fuel with
  | zero => intro rx ry b cnt _; rfl
  | succ fuel ih =>
    intro rx ry b cnt h
    rw [castRaySpec_succ, castRay_succ]
    by_cases hin : inBoundsI tm (rx + dx) (ry + dy)
    · simp only [if_pos hin]
      by_cases hu : bget b (rx + dx).toNat (ry + dy).toNat = -1
      · simp only [hu, if_true]
        by_cases hw : tm.cell (rx + dx).toNat (ry + dy).toNat = 1
        · simp only [if_pos hw]
        · simp only [if_neg hw]
          exact ih _ _ _ _ (consistent_bset h _ _)
      · have hbs : bset b (rx + dx).toNat (ry + dy).toNat
            (tm.cell (rx + dx).toNat (ry + dy).toNat) = b := by
          rw [← h _ _ hu]
          exact bset_bget_self hu
        simp only [hu, if_false, hbs]
        by_cases hw : tm.cell (rx + dx).toNat (ry + dy).toNat = 1
        · simp only [if_pos hw]
        · simp only [if_neg hw]
          exact ih _ _ _ _ h
    · simp only [if_neg hin]

/-- On a consistent belief map the scan of the code and the scan of
the claim coincide. -/
theorem lidarScanSpec_eq_lidarScan (tm : TrueMap) (b : Belief)
    (pos : Int × Int) (h : Consistent tm b) :
    lidarScanSpec tm b pos = lidarScan tm b pos := by
  rw [lidarScanSpec, lidarScan, lidarScanFuel]
  have hgen : ∀ (l : List (Int × Int)) (acc : Belief × Nat),
      Consistent tm acc.1 →
      l.foldl (fun acc d =>
          castRaySpec tm d.1 d.2 (scanFuel tm) pos.1 pos.2 acc.1 acc.2) acc =
        l.foldl (scanStep tm (scanFuel tm) pos) acc := by
    intro l
    induction l with
    | nil => intro acc _; rfl
    | cons d rest ih =>
      intro acc hc
      simp only [List.foldl_cons]
      rw [show castRaySpec tm d.1 d.2 (scanFuel tm) pos.1 pos.2 acc.1 acc.2 =
            scanStep tm (scanFuel tm) pos acc d from
          castRaySpec_eq_castRay tm d.1 d.2 (scanFuel tm) pos.1 pos.2 acc.1
            acc.2 hc]
      exact ih _ (castRay_consistent tm d.1 d.2 (scanFuel tm) pos.1 pos.2
        acc.1 acc.2 hc)
  exact hgen dirs (b, 0) h

/-! ### Step-level helper lemmas -/

theorem lidarScan_bget_known (tm : TrueMap) (b : Belief) (pos : Int × Int)
    (i j : Nat) (h : bget b i j ≠ -1) :
    bget (lidarScan tm b pos).1 i j = bget b i j :=
  scanFold_bget_known tm (scanFuel tm) pos dirs (b, 0) i j h

theorem lidarScan_wf (tm : TrueMap) (b : Belief) (pos : Int × Int)
    (h : BeliefWf tm b) : BeliefWf tm (lidarScan tm b pos).1 :=
  scanFold_wf tm (scanFuel tm) pos dirs (b, 0) h

theorem npAxis_in {n : Nat} {i : Int} (h0 : 0 ≤ i) (h1 : i < (n : Int)) :
    npAxis n i = some i.toNat := by
  rw [npAxis, if_pos ⟨h0, h1⟩]

theorem npAxis_wrap {n : Nat} {i : Int} (h0 : -(n : Int) ≤ i) (h1 : i < 0) :
    npAxis n i = some (i + n).toNat := by
  rw [npAxis, if_neg (by omega), if_pos ⟨h0, h1⟩]

theorem npAxis_none {n : Nat} {i : Int}
    (h : i < -(n : Int) ∨ (n : Int) ≤ i) : npAxis n i = none := by
  rw [npAxis, if_neg (by omega), if_neg (by omega)]

theorem npGet2_in {tm : TrueMap} {i j : Int} (hin : inBoundsI tm i j) :
    npGet2 tm i j = some (tm.cell i.toNat j.toNat) := by
  obtain ⟨h1, h2, h3, h4⟩ := hin
  rw [npGet2, npAxis_in h1 h2, npAxis_in h3 h4]

/-- How `step` evaluates once the collision lookup resolved to `v`. -/
theorem stepFull_eq_ok {s : EnvState} {action v : Int}
    (hv : npGet2 s.tm (newPosOf s action).1 (newPosOf s action).2 = some v) :
    stepFull s action = .ok
      { state := { s with
          belief := (lidarScan s.tm s.belief
            (if v = 1 then s.agentPos else newPosOf s action)).1,
          agentDir := dirAfter s action,
          agentPos := if v = 1 then s.agentPos else newPosOf s action },
        obs := observation (lidarScan s.tm s.belief
          (if v = 1 then s.agentPos else newPosOf s action)).1,
        reward := (if v = 1 then (0 : ℚ) - 5 else 0) +
          ((lidarScan s.tm s.belief
            (if v = 1 then s.agentPos else newPosOf s action)).2 : ℚ) * 1 -
          (0.1 : ℚ),
        done := decide ((EnvState.coverage { s with
          belief := (lidarScan s.tm s.belief
            (if v = 1 then s.agentPos else newPosOf s action)).1,
          agentDir := dirAfter s action,
          agentPos := if v = 1 then s.agentPos else newPosOf s action }) >
            (0.95 : ℚ)),
        collided := decide (v = 1),
        newly := (lidarScan s.tm s.belief
          (if v = 1 then s.agentPos else newPosOf s action)).2 } := by
  rw [stepFull, hv]

/-- How `step` fails when the collision lookup raises. -/
theorem stepFull_eq_error {s : EnvState} {action : Int}
    (hv : npGet2 s.tm (newPosOf s action).1 (newPosOf s action).2 = none) :
    stepFull s action = .error .indexError := by
  rw [stepFull, hv]

theorem findIdxEmpty_spec :
    ∀ {r : List Int} {j : Nat}, findIdxEmpty r = some j →
      j < r.length ∧ r.getD j 0 = 0 := by
  intro r
  induction r with
  | nil => intro j h; simp [findIdxEmpty] at h
  | cons v rest ih =>
    intro j h
    rw [findIdxEmpty] at h
    by_cases hv : v = 0
    · rw [if_pos hv] at h
      cases h
      simpa [List.getD] using hv
    · rw [if_neg hv] at h
      cases hr : findIdxEmpty rest with
      | none => rw [hr] at h; cases h
      | some j' =>
        rw [hr] at h
        cases h
        have := ih hr
        constructor
        · simp; omega
        · simpa [List.getD] using this.2

theorem findFirstEmptyAux_spec :
    ∀ {rows : List (List Int)} {i j : Nat},
      findFirstEmptyAux rows = some (i, j) →
      i < rows.length ∧ j < (rows.getD i []).length ∧
        (rows.getD i []).getD j 0 = 0 := by
  intro rows
  induction rows with
  | nil => intro i j h; simp [findFirstEmptyAux] at h
  | cons r rest ih =>
    intro i j h
    rw [findFirstEmptyAux] at h
    cases hr : findIdxEmpty r with
    | some j' =>
      rw [hr] at h
      cases h
      have := findIdxEmpty_spec hr
      exact ⟨Nat.succ_pos _, by simpa [List.getD] using this.1,
        by simpa [List.getD] using this.2⟩
    | none =>
      rw [hr] at h
      cases haux : findFirstEmptyAux rest with
      | none => rw [haux] at h; cases h
      | some p =>
        rw [haux] at h
        cases h
        have := ih (i := p.1) (j := p.2) (by rw [haux])
        refine ⟨by simp; omega, ?_, ?_⟩
        · simpa [List.getD] using this.2.1
        · simpa [List.getD] using this.2.2

/-- The cell `reset` places the agent on is an in-bounds empty cell. -/
theorem findFirstEmpty_spec {tm : TrueMap} {i j : Nat}
    (h : findFirstEmpty tm = some (i, j)) :
    i < tm.height ∧ j < (tm.data.getD i []).length ∧ tm.cell i j = 0 := by
  have := findFirstEmptyAux_spec h
  exact ⟨this.1, this.2.1, this.2.2⟩

/-- Knowledge of a belief cell survives a successful `step`. -/
theorem stepFull_bget_known {s : EnvState} {a : Int} {r : StepResult}
    (h : stepFull s a = .ok r) (i j : Nat) (hk : bget s.belief i j ≠ -1) :
    bget r.state.belief i j = bget s.belief i j := by
  cases hv : npGet2 s.tm (newPosOf s a).1 (newPosOf s a).2 with
  | none => rw [stepFull_eq_error hv] at h; cases h
  | some v =>
    rw [stepFull_eq_ok hv] at h
    cases h
    exact lidarScan_bget_known _ _ _ i j hk

/-- Knowledge of a belief cell survives any successful run of steps. -/
theorem runSteps_bget_known :
    ∀ (acts : List Int) (s s' : EnvState), runSteps s acts = .ok s' →
      ∀ i j, bget s.belief i j ≠ -1 →
        bget s'.belief i j = bget s.belief i j := by
  intro acts
  induction acts with
  | nil =>
    intro s s' h i j _
    rw [runSteps] at h
    cases h
    rfl
  | cons a rest ih =>
    intro s s' h i j hk
    rw [runSteps] at h
    cases hstep : stepFull s a with
    | error e => rw [hstep] at h; cases h
    | ok r =>
      rw [hstep] at h
      have h1 := stepFull_bget_known hstep i j hk
      rw [ih r.state s' h i j (by rw [h1]; exact hk), h1]

/-! ### Concrete fixtures used by witnesses and counterexamples -/

deriving instance DecidableEq for Except

/-- A 5×5 walled room (the open-room scenario of the spec). -/
def exTm : TrueMap :=
  ⟨[[1, 1, 1, 1, 1],
    [1, 0, 0, 0, 1],
    [1, 0, 0, 0, 1],
    [1, 0, 0, 0, 1],
    [1, 1, 1, 1, 1]]⟩

/-- The environment state `reset` produces on `exTm`
(its reachability is checked inside the witnesses below). -/
def exState : EnvState :=
  ⟨exTm,
   [[1, 1, 1, -1, -1],
    [1, 0, 0, 0, 1],
    [1, 0, 0, -1, -1],
    [-1, 0, -1, 0, -1],
    [-1, 1, -1, -1, 1]],
   0, ((1 : Int), (1 : Int))⟩

/-- A 2×2 fully empty map. -/
def exTm2 : TrueMap := ⟨[[0, 0], [0, 0]]⟩

/-- The state reached on `exTm2` by `reset` followed by one left
turn: agent at (0,0) facing north, everything discovered. -/
def exState2 : EnvState :=
  ⟨exTm2, [[0, 0], [0, 0]], 1, ((0 : Int), (0 : Int))⟩

/-- The result of `stepFull exState 0` (one step east in the 5×5
room), written out; checked against `stepFull` by `decide` in the
witnesses that use it. -/
def exStep : StepResult :=
  { state :=
      { tm := exTm,
        belief := [[1, 1, 1, 1, -1],
                   [1, 0, 0, 0, 1],
                   [1, 0, 0, 0, -1],
                   [1, 0, 0, 0, 1],
                   [-1, 1, 1, -1, 1]],
        agentDir := 0, agentPos := ((1 : Int), (2 : Int)) },
    obs := [1, 1, 1, 1, -1, 1, 0, 0, 0, 1, 1, 0, 0, 0, -1,
            1, 0, 0, 0, 1, -1, 1, 1, -1, 1],
    reward := 59 / 10, done := false, collided := false, newly := 6 }

/-- The result of `stepFull exState2 0` (forward off the top edge of
the 2×2 empty map): the position wraps to (-1, 0) and the episode
reports done (coverage 1). -/
def exStep2 : StepResult :=
  { state :=
      { tm := exTm2, belief := [[0, 0], [0, 0]],
        agentDir := 1, agentPos := ((-1 : Int), (0 : Int)) },
    obs := [0, 0, 0, 0],
    reward := -1 / 10, done := true, collided := false, newly := 0 }

/-! ### The claims -/

/-- C1: Monotonic discovery: a scan (the one of `reset` and the one
of `step` alike) leaves every already-known belief cell unchanged and
rewrites only cells that are still Unknown; consequently a known
cell keeps its value for the rest of the episode, across any run of
steps. -/
theorem c1_monotonic_discovery :
    (∀ (tm : TrueMap) (b : Belief) (pos : Int × Int) (i j : Nat),
        bget b i j ≠ -1 →
        bget (lidarScan tm b pos).1 i j = bget b i j) ∧
    (∀ (tm : TrueMap) (b : Belief) (pos : Int × Int) (i j : Nat),
        bget (lidarScan tm b pos).1 i j ≠ bget b i j → bget b i j = -1) ∧
    (∀ (s s' : EnvState) (acts : List Int) (i j : Nat),
        runSteps s acts = .ok s' → bget s.belief i j ≠ -1 →
        bget s'.belief i j = bget s.belief i j) := by
  refine ⟨fun tm b pos i j h => lidarScan_bget_known tm b pos i j h,
    fun tm b pos i j h => ?_,
    fun s s' acts i j h hk => runSteps_bget_known acts s s' h i j hk⟩
  by_contra hu
  exact h (lidarScan_bget_known tm b pos i j hu)

/-- Witness for C1 at a concrete reachable state: the wall recorded
at (0,1) and the start cell at (1,1) survive a further scan and a
further step. -/
theorem c1_monotonic_discovery_witness :
    bget (lidarScan exTm exState.belief ((1 : Int), (1 : Int))).1 0 1 =
      bget exState.belief 0 1 ∧
    bget (lidarScan exTm exState.belief ((1 : Int), (1 : Int))).1 1 1 =
      bget exState.belief 1 1 :=
  ⟨c1_monotonic_discovery.1 exTm exState.belief (1, 1) 0 1 (by decide),
   c1_monotonic_discovery.1 exTm exState.belief (1, 1) 1 1 (by decide)⟩

/-- Everything a successful `step` returns, in terms of the inputs. -/
theorem stepFull_ok_fields {s : EnvState} {a : Int} {r : StepResult}
    (h : stepFull s a = .ok r) :
    ∃ v, npGet2 s.tm (newPosOf s a).1 (newPosOf s a).2 = some v ∧
      r.collided = decide (v = 1) ∧
      r.newly = (lidarScan s.tm s.belief
        (if v = 1 then s.agentPos else newPosOf s a)).2 ∧
      r.reward = (if v = 1 then (0 : ℚ) - 5 else 0) +
        (r.newly : ℚ) * 1 - (0.1 : ℚ) ∧
      r.state.belief = (lidarScan s.tm s.belief
        (if v = 1 then s.agentPos else newPosOf s a)).1 ∧
      r.state.agentPos = (if v = 1 then s.agentPos else newPosOf s a) ∧
      r.state.agentDir = dirAfter s a ∧
      r.state.tm = s.tm ∧
      r.done = decide (r.state.coverage > (0.95 : ℚ)) := by
  cases hv : npGet2 s.tm (newPosOf s a).1 (newPosOf s a).2 with
  | none => rw [stepFull_eq_error hv] at h; cases h
  | some v =>
    rw [stepFull_eq_ok hv] at h
    cases h
    exact ⟨v, rfl, rfl, rfl, rfl, rfl, rfl, rfl, rfl, rfl⟩

/-- C4: Reward decomposition: the reward of every step is
(collision penalty -5.0 if collided, else 0) plus 1.0 per newly
discovered cell, minus the 0.1 step cost; a clean step discovering
nothing scores exactly -0.1, and a colliding step discovering k
cells scores -5.0 + k - 0.1. -/
theorem c4_reward_decomposition {s : EnvState} {a : Int} {r : StepResult}
    (h : stepFull s a = .ok r) :
    r.reward = (if r.collided then (-5 : ℚ) else 0) + (r.newly : ℚ) * 1 -
      (0.1 : ℚ) ∧
    (r.collided = false → r.newly = 0 → r.reward = -(0.1 : ℚ)) ∧
    (r.collided = true →
      r.reward = (-5 : ℚ) + (r.newly : ℚ) - (0.1 : ℚ)) := by
  obtain ⟨v, hv, hc, hn, hr, _⟩ := stepFull_ok_fields h
  by_cases h1 : v = 1
  · have hc' : r.collided = true := by rw [hc, h1]; rfl
    refine ⟨?_, ?_, ?_⟩
    · rw [hr, hc', if_pos h1]
      norm_num
    · intro hfalse
      rw [hc'] at hfalse
      cases hfalse
    · intro _
      rw [hr, if_pos h1]
      ring
  · have hc' : r.collided = false := by
      rw [hc]
      exact decide_eq_false h1
    refine ⟨?_, ?_, ?_⟩
    · rw [hr, hc', if_neg h1]
      norm_num
    · intro _ hzero
      rw [hr, if_neg h1, hzero]
      norm_num
    · intro htrue
      rw [hc'] at htrue
      cases htrue

/-- Witness for C4: the first step east in the 5×5 room collides
with nothing and discovers 6 cells, scoring 6 - 0.1 = 5.9. -/
theorem c4_reward_decomposition_witness :
    exStep.reward = (if exStep.collided then (-5 : ℚ) else 0) +
      (exStep.newly : ℚ) * 1 - (0.1 : ℚ) ∧
    exStep.collided = false ∧ exStep.reward = (59 : ℚ) / 10 :=
  ⟨(c4_reward_decomposition (show stepFull exState 0 = .ok exStep by
      with_unfolding_all decide)).1,
   by decide, by with_unfolding_all decide⟩

/-- C5: Termination threshold: the done flag of every step holds
exactly when the post-scan coverage strictly exceeds 0.95; coverage
exactly 0.95 does not terminate. -/
theorem c5_termination_threshold {s : EnvState} {a : Int} {r : StepResult}
    (h : stepFull s a = .ok r) :
    (r.done = true ↔ r.state.coverage > (0.95 : ℚ)) ∧
    (r.state.coverage = (0.95 : ℚ) → r.done = false) := by
  obtain ⟨v, hv, _, _, _, _, _, _, _, hdone⟩ := stepFull_ok_fields h
  constructor
  · rw [hdone]
    exact decide_eq_true_iff
  · intro heq
    rw [hdone, heq]
    simp

/-- Witness for C5 at a concrete step that terminates: the scan
covers the full 2×2 map, coverage 1 > 0.95, and done is reported. -/
theorem c5_termination_threshold_witness :
    exStep2.done = true ∧ exStep2.state.coverage > (0.95 : ℚ) :=
  ⟨by decide,
   (c5_termination_threshold (show stepFull exState2 0 = .ok exStep2 by
      with_unfolding_all decide)).1.mp (by decide)⟩

/-- A belief grid consistent on every in-range cell is consistent
everywhere (out-of-range reads are -1 and vacuous). -/
theorem consistent_of_bounded {tm : TrueMap} {b : Belief}
    (h : ∀ i, i < b.length → ∀ j, j < (b.getD i []).length →
      bget b i j ≠ -1 → bget b i j = tm.cell i j) : Consistent tm b := by
  intro i j hne
  obtain ⟨hi, hj⟩ := bget_ne_imp hne
  exact h i hi j hj hne

/-- C2: Raycast scan correctness: on a well-formed state (binary map
values, matching belief shape, belief agreeing with the ground truth
on known cells — true in every reachable state) the code's scan
coincides with the scan worded by the claim (`lidarScanSpec`: one
ray per direction vector of the 8, starting one step out, stopping
without a record at the boundary, recording the true kind otherwise,
stopping after a wall, no range cap), and the returned count is
exactly the number of cells that left Unknown. -/
theorem c2_raycast_scan (tm : TrueMap) (b : Belief) (pos : Int × Int)
    (hbin : tm.BinaryVals) (hwf : BeliefWf tm b) (hcons : Consistent tm b) :
    lidarScan tm b pos = lidarScanSpec tm b pos ∧
    knownCount (lidarScan tm b pos).1 =
      knownCount b + (lidarScan tm b pos).2 :=
  ⟨(lidarScanSpec_eq_lidarScan tm b pos hcons).symm,
   lidarScan_count tm hbin b pos hwf⟩

/-- Witness for C2 on the reachable 5×5 state. -/
theorem c2_raycast_scan_witness :
    lidarScan exTm exState.belief ((1 : Int), (2 : Int)) =
      lidarScanSpec exTm exState.belief ((1 : Int), (2 : Int)) ∧
    knownCount (lidarScan exTm exState.belief ((1 : Int), (2 : Int))).1 =
      knownCount exState.belief +
        (lidarScan exTm exState.belief ((1 : Int), (2 : Int))).2 :=
  c2_raycast_scan exTm exState.belief (1, 2) (by decide) (by decide)
    (consistent_of_bounded (by decide))

/-- C9: Scan termination: from any in-bounds agent position the scan
is independent of any fuel beyond `scanFuel` — every ray stops, at a
wall or the boundary, within `exitBound` steps, which the map
dimensions bound. -/
theorem c9_scan_termination (tm : TrueMap) (b : Belief) (pos : Int × Int)
    (hpos : inBoundsI tm pos.1 pos.2) :
    (∀ extra : Nat,
      lidarScanFuel tm b pos (scanFuel tm + extra) = lidarScan tm b pos) ∧
    (∀ d ∈ dirs, exitBound tm d.1 d.2 pos.1 pos.2 ≤ scanFuel tm) := by
  obtain ⟨h1, h2, h3, h4⟩ := hpos
  exact ⟨fun extra => lidarScanFuel_stable tm b pos ⟨by omega, by omega⟩
      ⟨by omega, by omega⟩ extra,
    fun d hd => exitBound_le_scanFuel tm hd ⟨by omega, by omega⟩
      ⟨by omega, by omega⟩⟩

/-- Witness for C9 at the 5×5 state, with 5 units of extra fuel. -/
theorem c9_scan_termination_witness :
    lidarScanFuel exTm exState.belief ((1 : Int), (1 : Int))
      (scanFuel exTm + 5) =
      lidarScan exTm exState.belief ((1 : Int), (1 : Int)) :=
  (c9_scan_termination exTm exState.belief (1, 1) (by decide)).1 5

/-- C3: Forward-move collision behaviour: the forward candidate is
the position plus the displacement of the current orientation; with
the candidate inside the map, a wall there leaves the position
unchanged and reports a collision, anything else moves the agent
there with no collision; turn actions (from any in-bounds non-wall
cell, which every reachable position is) never move the agent and
never collide. -/
theorem c3_forward_collision (s : EnvState) :
    newPosOf s 0 = (s.agentPos.1 + (directions s.agentDir).1,
      s.agentPos.2 + (directions s.agentDir).2) ∧
    (inBoundsI s.tm (newPosOf s 0).1 (newPosOf s 0).2 →
      (s.tm.cell (newPosOf s 0).1.toNat (newPosOf s 0).2.toNat = 1 →
        (stepFull s 0).toOption.map (fun r => (r.state.agentPos, r.collided)) =
          some (s.agentPos, true)) ∧
      (s.tm.cell (newPosOf s 0).1.toNat (newPosOf s 0).2.toNat ≠ 1 →
        (stepFull s 0).toOption.map (fun r => (r.state.agentPos, r.collided)) =
          some (newPosOf s 0, false))) ∧
    (∀ a, (a = 1 ∨ a = 2) → inBoundsI s.tm s.agentPos.1 s.agentPos.2 →
      s.tm.cell s.agentPos.1.toNat s.agentPos.2.toNat ≠ 1 →
      (stepFull s a).toOption.map (fun r => (r.state.agentPos, r.collided)) =
        some (s.agentPos, false)) := by
  refine ⟨by simp [newPosOf, dirAfter], fun hin => ⟨?_, ?_⟩, ?_⟩
  · intro hw
    rw [stepFull_eq_ok (npGet2_in hin)]
    simp [hw, Except.toOption]
  · intro hw
    rw [stepFull_eq_ok (npGet2_in hin)]
    simp [hw, Except.toOption]
  · intro a ha hin hcell
    have ha0 : a ≠ 0 := by rcases ha with h | h <;> omega
    have hnp : newPosOf s a = s.agentPos := by rw [newPosOf, if_neg ha0]
    have hv : npGet2 s.tm (newPosOf s a).1 (newPosOf s a).2 =
        some (s.tm.cell s.agentPos.1.toNat s.agentPos.2.toNat) := by
      rw [hnp]
      exact npGet2_in hin
    rw [stepFull_eq_ok hv]
    simp [hcell, hnp, Except.toOption]

/-- Witness for C3: the eastward step from (1,1) in the 5×5 room
(empty candidate), and a left turn at the same place. -/
theorem c3_forward_collision_witness :
    (stepFull exState 0).toOption.map
      (fun r => (r.state.agentPos, r.collided)) =
      some (newPosOf exState 0, false) ∧
    (stepFull exState 1).toOption.map
      (fun r => (r.state.agentPos, r.collided)) =
      some (exState.agentPos, false) :=
  ⟨((c3_forward_collision exState).2.1 (by decide)).2 (by decide),
   (c3_forward_collision exState).2.2 1 (Or.inl rfl) (by decide) (by decide)⟩

theorem npGet2_wrap_row {tm : TrueMap} {i j : Int}
    (h1 : -(tm.height : Int) ≤ i) (h2 : i < 0) (h3 : 0 ≤ j)
    (h4 : j < (tm.width : Int)) :
    npGet2 tm i j = some (tm.cell (i + tm.height).toNat j.toNat) := by
  unfold npGet2
  rw [npAxis_wrap h1 h2, npAxis_in h3 h4]

theorem npGet2_wrap_col {tm : TrueMap} {i j : Int}
    (h1 : 0 ≤ i) (h2 : i < (tm.height : Int)) (h3 : -(tm.width : Int) ≤ j)
    (h4 : j < 0) :
    npGet2 tm i j = some (tm.cell i.toNat (j + tm.width).toNat) := by
  unfold npGet2
  rw [npAxis_in h1 h2, npAxis_wrap h3 h4]

theorem npGet2_none_row {tm : TrueMap} {i : Int} (j : Int)
    (h : i < -(tm.height : Int) ∨ (tm.height : Int) ≤ i) :
    npGet2 tm i j = none := by
  unfold npGet2
  rw [npAxis_none h]

theorem npGet2_none_col {tm : TrueMap} (i : Int) {j : Int}
    (h : j < -(tm.width : Int) ∨ (tm.width : Int) ≤ j) :
    npGet2 tm i j = none := by
  unfold npGet2
  rw [npAxis_none h]
  cases npAxis tm.height i <;> rfl

/-- C10: Out-of-bounds forward behaviour: `step` never bounds-checks
the forward candidate.  From an in-bounds position, walking off the
top or left edge makes the wall test read the opposite edge of the
map (numpy wrap-around of index -1) — and, if that wrapped cell is
no wall, the stored position becomes negative — while walking off
the bottom or right edge makes the lookup raise an uncaught
`IndexError`. -/
theorem c10_out_of_bounds_forward (s : EnvState)
    (hpos : inBoundsI s.tm s.agentPos.1 s.agentPos.2) :
    (s.agentDir = 1 → s.agentPos.1 = 0 →
      npGet2 s.tm (newPosOf s 0).1 (newPosOf s 0).2 =
        some (s.tm.cell (s.tm.height - 1) s.agentPos.2.toNat) ∧
      (s.tm.cell (s.tm.height - 1) s.agentPos.2.toNat ≠ 1 →
        (stepFull s 0).toOption.map (fun r => r.state.agentPos) =
          some ((-1 : Int), s.agentPos.2)) ∧
      (s.tm.cell (s.tm.height - 1) s.agentPos.2.toNat = 1 →
        (stepFull s 0).toOption.map (fun r => (r.state.agentPos, r.collided)) =
          some (s.agentPos, true))) ∧
    (s.agentDir = 2 → s.agentPos.2 = 0 →
      npGet2 s.tm (newPosOf s 0).1 (newPosOf s 0).2 =
        some (s.tm.cell s.agentPos.1.toNat (s.tm.width - 1)) ∧
      (s.tm.cell s.agentPos.1.toNat (s.tm.width - 1) ≠ 1 →
        (stepFull s 0).toOption.map (fun r => r.state.agentPos) =
          some (s.agentPos.1, (-1 : Int))) ∧
      (s.tm.cell s.agentPos.1.toNat (s.tm.width - 1) = 1 →
        (stepFull s 0).toOption.map (fun r => (r.state.agentPos, r.collided)) =
          some (s.agentPos, true))) ∧
    (s.agentDir = 3 → s.agentPos.1 = (s.tm.height : Int) - 1 →
      stepFull s 0 = .error .indexError) ∧
    (s.agentDir = 0 → s.agentPos.2 = (s.tm.width : Int) - 1 →
      stepFull s 0 = .error .indexError) := by
  obtain ⟨h1, h2, h3, h4⟩ := hpos
  refine ⟨fun hd hr => ?_, fun hd hc => ?_, fun hd hr => ?_, fun hd hc => ?_⟩
  · have hnp : newPosOf s 0 = (s.agentPos.1 - 1, s.agentPos.2) := by
      simp [newPosOf, dirAfter, directions, hd]
      omega
    have hv : npGet2 s.tm (newPosOf s 0).1 (newPosOf s 0).2 =
        some (s.tm.cell (s.tm.height - 1) s.agentPos.2.toNat) := by
      rw [hnp]
      rw [npGet2_wrap_row (by omega) (by omega) h3 h4]
      have : (s.agentPos.1 - 1 + (s.tm.height : Int)).toNat =
          s.tm.height - 1 := by omega
      rw [this]
    refine ⟨hv, fun hw => ?_, fun hw => ?_⟩
    · rw [stepFull_eq_ok hv]
      simp only [Except.toOption, Option.map_some']
      rw [if_neg hw, hnp]
      have : s.agentPos.1 - 1 = -1 := by omega
      rw [this]
    · rw [stepFull_eq_ok hv]
      simp [hw, Except.toOption]
  · have hnp : newPosOf s 0 = (s.agentPos.1, s.agentPos.2 - 1) := by
      simp [newPosOf, dirAfter, directions, hd]
      omega
    have hv : npGet2 s.tm (newPosOf s 0).1 (newPosOf s 0).2 =
        some (s.tm.cell s.agentPos.1.toNat (s.tm.width - 1)) := by
      rw [hnp]
      rw [npGet2_wrap_col h1 h2 (by omega) (by omega)]
      have : (s.agentPos.2 - 1 + (s.tm.width : Int)).toNat =
          s.tm.width - 1 := by omega
      rw [this]
    refine ⟨hv, fun hw => ?_, fun hw => ?_⟩
    · rw [stepFull_eq_ok hv]
      simp only [Except.toOption, Option.map_some']
      rw [if_neg hw, hnp]
      have : s.agentPos.2 - 1 = -1 := by omega
      rw [this]
    · rw [stepFull_eq_ok hv]
      simp [hw, Except.toOption]
  · have hnp : newPosOf s 0 = (s.agentPos.1 + 1, s.agentPos.2) := by
      simp [newPosOf, dirAfter, directions, hd]
    refine stepFull_eq_error ?_
    rw [hnp]
    exact npGet2_none_row _ (Or.inr (by omega))
  · have hnp : newPosOf s 0 = (s.agentPos.1, s.agentPos.2 + 1) := by
      simp [newPosOf, dirAfter, directions, hd]
    refine stepFull_eq_error ?_
    rw [hnp]
    exact npGet2_none_col _ (Or.inr (by omega))

/-- Witness for C10: on the 2×2 empty map at (0,0) facing north, the
wall test wraps to row 1 (empty there) and the step stores the
out-of-bounds position (-1, 0). -/
theorem c10_out_of_bounds_forward_witness :
    npGet2 exTm2 (newPosOf exState2 0).1 (newPosOf exState2 0).2 =
      some (exTm2.cell (exTm2.height - 1) 0) ∧
    (stepFull exState2 0).toOption.map (fun r => r.state.agentPos) =
      some ((-1 : Int), (0 : Int)) := by
  have h := (c10_out_of_bounds_forward exState2 (by decide)).1 rfl rfl
  exact ⟨h.1, h.2.1 (by decide)⟩

/-- How `reset` evaluates once the start-cell search succeeded. -/
theorem reset_eq_ok {s : EnvState} {i j : Nat}
    (hfind : findFirstEmpty s.tm = some (i, j)) :
    reset s = .ok
      ({ s with
          belief := (lidarScan s.tm
            (bset (List.replicate s.tm.height
              (List.replicate s.tm.width (-1))) i j 0)
            ((i : Int), (j : Int))).1,
          agentPos := ((i : Int), (j : Int)) },
        observation (lidarScan s.tm
          (bset (List.replicate s.tm.height
            (List.replicate s.tm.width (-1))) i j 0)
          ((i : Int), (j : Int))).1) := by
  unfold reset
  rw [hfind]

/-- How `reset` fails when the map has no empty cell. -/
theorem reset_eq_error {s : EnvState}
    (hfind : findFirstEmpty s.tm = none) :
    reset s = .error .noStart := by
  unfold reset
  rw [hfind]

/-- C6 (amended): an action code outside 0/1/2 raises no error at
all; `step` treats it as a stay-in-place move: the direction and
position survive, the scan fires from the unchanged position, and —
in any state whose belief already absorbed a scan from the current
position, as every state `reset` or `step` produces has — the
belief map (hence the coverage) is unchanged and nothing is newly
discovered. -/
theorem c6_invalid_action_no_error (s : EnvState) (a : Int)
    (ha0 : a ≠ 0) (ha1 : a ≠ 1) (ha2 : a ≠ 2)
    (hbin : s.tm.BinaryVals) (hwf : BeliefWf s.tm s.belief)
    (hpos : inBoundsI s.tm s.agentPos.1 s.agentPos.2)
    (hscan : (lidarScan s.tm s.belief s.agentPos).1 = s.belief) :
    (stepFull s a).toOption.map (fun r => (r.state, r.newly)) =
      some (s, 0) := by
  have hnp : newPosOf s a = s.agentPos := by
    rw [newPosOf, if_neg ha0]
  have hdir : dirAfter s a = s.agentDir := by
    rw [dirAfter, if_neg ha1, if_neg ha2]
  have hv : npGet2 s.tm (newPosOf s a).1 (newPosOf s a).2 =
      some (s.tm.cell s.agentPos.1.toNat s.agentPos.2.toNat) := by
    rw [hnp]
    exact npGet2_in hpos
  have hcnt : (lidarScan s.tm s.belief s.agentPos).2 = 0 := by
    have := lidarScan_count s.tm hbin s.belief s.agentPos hwf
    rw [hscan] at this
    omega
  have hpos' : (if s.tm.cell s.agentPos.1.toNat s.agentPos.2.toNat = 1
      then s.agentPos else newPosOf s a) = s.agentPos := by
    rw [hnp, ite_self]
  rw [stepFull_eq_ok hv]
  simp only [Except.toOption, Option.map_some']
  rw [hpos', hdir, hscan, hcnt]

/-- Witness for C6 (amended): `step(99)` at the post-reset 5×5 state
succeeds and changes nothing. -/
theorem c6_invalid_action_no_error_witness :
    (stepFull exState 99).toOption.map (fun r => (r.state, r.newly)) =
      some (exState, 0) :=
  c6_invalid_action_no_error exState 99 (by decide) (by decide) (by decide)
    (by decide) (by decide) (by decide) (by decide)

/-- C6 is false as stated: at the reachable post-reset 5×5 state,
`step(99)` does not fail at all (the code contains no action
validation and no `InvalidActionError`); it completes as an ordinary
no-move step. -/
theorem c6_counterexample :
    (reset ⟨exTm, [], 0, ((0 : Int), (0 : Int))⟩).toOption.map
      (fun p => p.1) = some exState ∧
    (stepFull exState 99).toOption.isSome = true := by
  constructor
  · decide
  · decide

/-- C7 (amended): after `reset` the agent sits on an in-bounds empty
cell, and a successful `step` keeps it on one provided the forward
candidate (when the action is 0) stays inside the map; without that
proviso the numpy wrap-around can store a negative, out-of-bounds
position (`c7_counterexample`). -/
theorem c7_agent_position_invariant :
    (∀ (s s' : EnvState) (obs : List Int), s.tm.Rect →
      reset s = .ok (s', obs) →
      inBoundsI s'.tm s'.agentPos.1 s'.agentPos.2 ∧
      s'.tm.cell s'.agentPos.1.toNat s'.agentPos.2.toNat = 0) ∧
    (∀ (s : EnvState) (a : Int) (r : StepResult), s.tm.BinaryVals →
      stepFull s a = .ok r →
      inBoundsI s.tm s.agentPos.1 s.agentPos.2 →
      s.tm.cell s.agentPos.1.toNat s.agentPos.2.toNat = 0 →
      (a = 0 → inBoundsI s.tm (newPosOf s 0).1 (newPosOf s 0).2) →
      inBoundsI s.tm r.state.agentPos.1 r.state.agentPos.2 ∧
      s.tm.cell r.state.agentPos.1.toNat r.state.agentPos.2.toNat = 0) := by
  constructor
  · intro s s' obs hrect h
    cases hfind : findFirstEmpty s.tm with
    | none => rw [reset_eq_error hfind] at h; cases h
    | some p =>
      obtain ⟨i, j⟩ := p
      rw [reset_eq_ok hfind] at h
      cases h
      obtain ⟨hi, hj, hcell⟩ := findFirstEmpty_spec hfind
      have hwidth : (s.tm.data.getD i []).length = s.tm.width :=
        hrect _ (getD_mem hi [])
      have hjw : j < s.tm.width := by omega
      exact ⟨⟨Int.natCast_nonneg i,
        show (i : Int) < (s.tm.height : Int) by exact_mod_cast hi,
        Int.natCast_nonneg j,
        show (j : Int) < (s.tm.width : Int) by exact_mod_cast hjw⟩, hcell⟩
  · intro s a r hbin h hpos hcell hcand
    obtain ⟨v, hv, _, _, _, _, hpos', _, htm, _⟩ := stepFull_ok_fields h
    by_cases ha : a = 0
    · subst ha
      have hin := hcand rfl
      have hv' := npGet2_in hin
      rw [hv'] at hv
      cases hv
      by_cases hw : s.tm.cell (newPosOf s 0).1.toNat (newPosOf s 0).2.toNat = 1
      · rw [hpos', if_pos hw]
        exact ⟨hpos, hcell⟩
      · rw [hpos', if_neg hw]
        refine ⟨hin, ?_⟩
        rcases TrueMap.cell_binary hbin (newPosOf s 0).1.toNat
          (newPosOf s 0).2.toNat with h0 | h1
        · exact h0
        · exact absurd h1 hw
    · have hnp : newPosOf s a = s.agentPos := by
        rw [newPosOf, if_neg ha]
      rw [hnp] at hv
      have hv' := npGet2_in hpos
      rw [hv'] at hv
      cases hv
      have hne1 : s.tm.cell s.agentPos.1.toNat s.agentPos.2.toNat ≠ 1 := by
        omega
      rw [hpos', if_neg hne1, hnp]
      exact ⟨hpos, hcell⟩

/-- Witness for C7 (amended): the reset landing cell on the 5×5 map
and a safe forward step from it. -/
theorem c7_agent_position_invariant_witness :
    (inBoundsI exState.tm exState.agentPos.1 exState.agentPos.2 ∧
      exState.tm.cell exState.agentPos.1.toNat exState.agentPos.2.toNat
        = 0) ∧
    (inBoundsI exTm exStep.state.agentPos.1 exStep.state.agentPos.2 ∧
      exTm.cell exStep.state.agentPos.1.toNat exStep.state.agentPos.2.toNat
        = 0) :=
  ⟨c7_agent_position_invariant.1 ⟨exTm, [], 0, ((0 : Int), (0 : Int))⟩
      exState (observation exState.belief) (by decide) (by decide),
   c7_agent_position_invariant.2 exState 0 exStep (by decide)
      (by with_unfolding_all decide) (by decide) (by decide)
      (fun h => by decide)⟩

/-- C7 is false as stated: from the reachable state `exState2`
(in-bounds empty cell (0,0), facing north, reached by reset plus one
left turn) the forward step succeeds yet stores the out-of-bounds
position (-1, 0). -/
theorem c7_counterexample :
    (reset ⟨exTm2, [], 0, ((0 : Int), (0 : Int))⟩).toOption.map
      (fun p => (stepFull p.1 1).toOption.map (fun r => r.state)) =
      some (some exState2) ∧
    (stepFull exState2 0).toOption.map (fun r => r.state.agentPos) =
      some ((-1 : Int), (0 : Int)) ∧
    ¬inBoundsI exTm2 (-1) 0 := by
  refine ⟨by decide, by decide, by decide⟩

/-- C8 (amended): construction fails (the loader's `ValueError`)
when rows have unequal lengths, or when fewer than two rows make the
loaded array non-two-dimensional; any successfully loaded map is
rectangular with at least two rows; but cell values are NOT
validated (see `c8_counterexample`).  The ground-truth map is never
mutated afterwards: `step` and `reset` both preserve it. -/
theorem c8_map_load_validation :
    (∀ (rows : List (List Int)) (r1 r2 : List Int), r1 ∈ rows → r2 ∈ rows →
      r1.length ≠ r2.length → loadTrueMap rows = .error ()) ∧
    (∀ (rows : List (List Int)) (tm : TrueMap), loadTrueMap rows = .ok tm →
      tm.Rect ∧ 2 ≤ tm.height) ∧
    (∀ (s : EnvState) (a : Int) (r : StepResult), stepFull s a = .ok r →
      r.state.tm = s.tm) ∧
    (∀ (s s' : EnvState) (obs : List Int), reset s = .ok (s', obs) →
      s'.tm = s.tm) := by
  refine ⟨?_, ?_, ?_, ?_⟩
  · intro rows r1 r2 h1 h2 hne
    rcases rows with _ | ⟨r0, _ | ⟨rr, rest⟩⟩
    · cases h1
    · rw [List.mem_singleton] at h1 h2
      subst h1
      subst h2
      exact absurd rfl hne
    · have hcond : ¬((r0 :: rr :: rest).all
          (fun r => decide (r.length = r0.length)) = true) := by
        intro hall
        have hmem := List.all_eq_true.mp hall
        have e1 := of_decide_eq_true (hmem r1 h1)
        have e2 := of_decide_eq_true (hmem r2 h2)
        omega
      show (if ((r0 :: rr :: rest).all
          (fun r => decide (r.length = r0.length))) = true
        then Except.ok (TrueMap.mk (r0 :: rr :: rest)) else Except.error ())
          = Except.error ()
      rw [if_neg hcond]
  · intro rows tm h
    rcases rows with _ | ⟨r0, _ | ⟨rr, rest⟩⟩
    · cases h
    · cases h
    · replace h : (if ((r0 :: rr :: rest).all
          (fun r => decide (r.length = r0.length))) = true
        then Except.ok (TrueMap.mk (r0 :: rr :: rest)) else Except.error ())
          = Except.ok tm := h
      by_cases hall : ((r0 :: rr :: rest).all
          (fun r => decide (r.length = r0.length))) = true
      · rw [if_pos hall] at h
        cases h
        have hmem := List.all_eq_true.mp hall
        refine ⟨fun r hr => of_decide_eq_true (hmem r hr), ?_⟩
        show 2 ≤ (r0 :: rr :: rest).length
        simp
      · rw [if_neg hall] at h
        cases h
  · intro s a r h
    obtain ⟨v, hv, _, _, _, _, _, _, htm, _⟩ := stepFull_ok_fields h
    exact htm
  · intro s s' obs h
    cases hfind : findFirstEmpty s.tm with
    | none => rw [reset_eq_error hfind] at h; cases h
    | some p =>
      obtain ⟨i, j⟩ := p
      rw [reset_eq_ok hfind] at h
      cases h
      rfl

/-- Witness for C8 (amended): a ragged source fails to load, and the
true map survives a step. -/
theorem c8_map_load_validation_witness :
    loadTrueMap [[0, 1], [0]] = .error () ∧ exStep.state.tm = exTm :=
  ⟨c8_map_load_validation.1 [[0, 1], [0]] [0, 1] [0] (by decide) (by decide)
      (by decide),
   c8_map_load_validation.2.2.1 exState 0 exStep
      (by with_unfolding_all decide)⟩

/-- C8 is false as stated: a source matrix holding 7 — outside the
claimed value range — loads with no error of any kind (`np.loadtxt`
checks shape only, and `env.py` never validates values). -/
theorem c8_counterexample :
    (loadTrueMap [[0, 7], [0, 0]]).toOption = some ⟨[[0, 7], [0, 0]]⟩ ∧
    ¬TrueMap.BinaryVals ⟨[[0, 7], [0, 0]]⟩ :=
  ⟨by decide, by decide⟩

end ActiveSlam
